import Mathlib

/-!
Verification of the data-optimization tutorial repository.

The repository's notebook (`src/data_type/data_optimization.ipynb`) shows
chunked access patterns: a manual windowed raster read loop, a Parquet
batch-iteration loop counting "forest" rows, and a lazy scaled-mean
datacube pipeline.  The accompanying specification generalizes the
chunked patterns into a "Chunked Aggregator" component (fetch, reduce,
combine over a partitioned dataset).  The aggregator itself is not code
of the repository; it is modelled here from the specification, while the
windowed-read loop and the lazy pipeline are embedded from the notebook.
-/

namespace ChunkedAggregator

/-- Modelled from the spec: the error produced when fetching a partition
fails; the aggregator code is absent from the repository sources.  Per the
spec, a `FetchError` carries the identifier of the failing partition. -/
structure FetchError where
  index : Nat
deriving DecidableEq

/-- Modelled from the spec: the observable steps of an aggregation run —
fetching, reducing, and combining a given partition. -/
inductive Event where
  | fetch (i : Nat)
  | reduceStep (i : Nat)
  | combineStep (i : Nat)
deriving DecidableEq

/-- Modelled from the spec: the tagged outcome of a run, either `done`
with the final aggregate or `failed` with the triggering error and the
aggregate computed so far. -/
inductive AggResult (A : Type) where
  | done (agg : A)
  | failed (err : FetchError) (sofar : A)
deriving DecidableEq

/-- Modelled from the spec: the sequential aggregation loop, absent from
the repository sources.  The source is a finite list of fetch outcomes
(`some payload` on success, `none` on fetch failure); `i` is the index of
the next partition; `acc` the running aggregate.  Each successful cycle
fetches, evaluates the `keep` predicate, and (when kept) reduces then
combines before moving to the next partition; a fetch failure aborts with
the aggregate computed so far.  Returns the event trace and the result. -/
def runFrom {P R A : Type} (red : P → R) (comb : A → R → A) (keep : P → Bool) :
    List (Option P) → Nat → A → List Event × AggResult A
  | [], _, acc => ([], .done acc)
  | none :: _, i, acc => ([.fetch i], .failed ⟨i⟩ acc)
  | some p :: rest, i, acc =>
    if keep p then
      let next := runFrom red comb keep rest (i + 1) (comb acc (red p))
      (.fetch i :: .reduceStep i :: .combineStep i :: next.1, next.2)
    else
      let next := runFrom red comb keep rest (i + 1) acc
      (.fetch i :: next.1, next.2)

/-- Modelled from the spec: a full aggregation run from the first
partition with a given initial aggregate. -/
def run {P R A : Type} (red : P → R) (comb : A → R → A) (keep : P → Bool)
    (src : List (Option P)) (init : A) : List Event × AggResult A :=
  runFrom red comb keep src 0 init

/-- Modelled from the spec: the event trace of a run. -/
def runTrace {P R A : Type} (red : P → R) (comb : A → R → A) (keep : P → Bool)
    (src : List (Option P)) (init : A) : List Event :=
  (run red comb keep src init).1

/-- Modelled from the spec: the result of a run. -/
def runResult {P R A : Type} (red : P → R) (comb : A → R → A) (keep : P → Bool)
    (src : List (Option P)) (init : A) : AggResult A :=
  (run red comb keep src init).2

/-- The reducer of the notebook's Parquet loop, generalized: a chunk's
partial result is the sum of a per-row measure (for the notebook,
the indicator of the row's type being "forest"). -/
def reduceChunk {S M : Type} [AddCommMonoid M] (f : S → M) (chunk : List S) : M :=
  (chunk.map f).sum

/-- The per-row measure of the notebook's Parquet loop: 1 when the row's
`type` column equals "forest", 0 otherwise. -/
def forestIndicator (row : String) : Nat :=
  if row == "forest" then 1 else 0

/-- The concrete 5-partition dataset of the spec's scenario: per-partition
forest counts [3, 0, 2, 1, 4]. -/
def forestPartitions : List (List String) :=
  [ ["forest", "other", "forest", "forest"],
    ["other", "other"],
    ["forest", "other", "forest"],
    ["other", "forest"],
    ["forest", "forest", "other", "forest", "forest"] ]

/-- The partition indices fetched during a run, in trace order. -/
def fetchOrder (tr : List Event) : List Nat :=
  tr.filterMap fun e =>
    match e with
    | .fetch i => some i
    | _ => none

/-- The trace a run produces over successfully fetched partitions: for
each partition, a fetch, then (when the partition is kept) a reduce and a
combine, before moving to the next index. -/
def keptTraceFrom {P : Type} (keep : P → Bool) : List P → Nat → List Event
  | [], _ => []
  | c :: rest, s =>
    (if keep c then [.fetch s, .reduceStep s, .combineStep s] else [.fetch s])
      ++ keptTraceFrom keep rest (s + 1)

/-- Folding a combiner over a list starting from `acc`, in list order. -/
theorem foldl_comb_add {S M : Type} [AddCommMonoid M] (g : S → M) (l : List S) (acc : M) :
    l.foldl (fun a c => a + g c) acc = acc + (l.map g).sum := by
  induction l generalizing acc with
  | nil => simp
  | cons hd tl ih => simp [ih, add_assoc]

/-- Characterization of a run over an all-successful source: the trace is
`keptTraceFrom` and the result is `done` with the fold over the kept
partitions, in enumeration order. -/
theorem runFrom_map_some {P R A : Type} (red : P → R) (comb : A → R → A) (keep : P → Bool)
    (l : List P) (s : Nat) (acc : A) :
    runFrom red comb keep (l.map some) s acc
      = (keptTraceFrom keep l s,
         .done ((l.filter keep).foldl (fun a c => comb a (red c)) acc)) := by
  induction l generalizing s acc with
  | nil => simp [runFrom, keptTraceFrom]
  | cons c rest ih =>
    by_cases hk : keep c <;>
      simp [runFrom, keptTraceFrom, hk, List.filter_cons, ih]

/-- Characterization of a run whose source fails at index `good.length`:
the partitions before the failure are processed normally, then the
failing fetch aborts the run with the aggregate computed so far. -/
theorem runFrom_append_none {P R A : Type} (red : P → R) (comb : A → R → A) (keep : P → Bool)
    (good : List P) (rest : List (Option P)) (s : Nat) (acc : A) :
    runFrom red comb keep (good.map some ++ none :: rest) s acc
      = (keptTraceFrom keep good s ++ [.fetch (s + good.length)],
         .failed ⟨s + good.length⟩
           ((good.filter keep).foldl (fun a c => comb a (red c)) acc)) := by
  induction good generalizing s acc with
  | nil => simp [runFrom, keptTraceFrom]
  | cons c tail ih =>
    by_cases hk : keep c <;>
      simp [runFrom, keptTraceFrom, hk, List.filter_cons, ih,
        Nat.add_comm, Nat.add_assoc, Nat.add_left_comm]

/-- The sum of per-chunk partial results equals the whole-dataset sum. -/
theorem sum_map_reduceChunk {S M : Type} [AddCommMonoid M] (f : S → M)
    (chunks : List (List S)) :
    (chunks.map (reduceChunk f)).sum = (chunks.flatten.map f).sum := by
  rw [List.map_flatten, List.sum_flatten, List.map_map]
  rfl

end ChunkedAggregator

namespace ChunkedAggregator

/-- C1: for every dataset split into N ≥ 1 partitions, running the
aggregator (reduce = per-chunk sum of a row measure, combine = addition)
yields `done` with the whole-dataset aggregate, for every chunking of the
dataset — hence for every chunk size — and folding the per-partition
partial results in any order yields the same value. -/
theorem chunked_aggregate_eq_whole_dataset {S M : Type} [AddCommMonoid M] (f : S → M)
    (data : List S) (chunks : List (List S))
    (hjoin : chunks.flatten = data) (hN : 1 ≤ chunks.length)
    (partials : List M) (hperm : partials.Perm (chunks.map (reduceChunk f))) :
    runResult (reduceChunk f) (· + ·) (fun _ => true) (chunks.map some) 0
      = .done ((data.map f).sum)
    ∧ partials.sum = (data.map f).sum := by
  subst hjoin
  constructor
  · rw [runResult, run, runFrom_map_some]
    simp [List.filter_true, foldl_comb_add, sum_map_reduceChunk]
  · rw [hperm.sum_eq, sum_map_reduceChunk]

/-- Witness for C1 at a concrete instance: data `[1, 2, 3]` chunked as
`[[1, 2], [3]]` with the identity measure, with the partial results
folded in the reversed order. -/
theorem chunked_aggregate_eq_whole_dataset_witness :
    runResult (reduceChunk (id : Nat → Nat)) (· + ·) (fun _ => true)
      ([[1, 2], [3]].map some) 0 = .done (([1, 2, 3].map id).sum)
    ∧ ([3, 3] : List Nat).sum = ([1, 2, 3].map id).sum :=
  chunked_aggregate_eq_whole_dataset id [1, 2, 3] [[1, 2], [3]]
    (by decide) (by decide) [3, 3] (by decide)

/-- C3: the spec's concrete scenario — 5 partitions with per-partition
forest counts [3, 0, 2, 1, 4], reducer counting "forest" rows, summing
combiner — yields a final aggregate of 10, visiting partitions 0..4 in
order. -/
theorem forest_scenario_aggregate_ten :
    runResult (reduceChunk forestIndicator) (· + ·) (fun _ => true)
      (forestPartitions.map some) 0 = .done 10
    ∧ fetchOrder (runTrace (reduceChunk forestIndicator) (· + ·) (fun _ => true)
        (forestPartitions.map some) 0) = [0, 1, 2, 3, 4]
    ∧ forestPartitions.map (reduceChunk forestIndicator) = [3, 0, 2, 1, 4] := by
  refine ⟨rfl, rfl, rfl⟩

/-- C5: a fetch failure at partition index `good.length` yields a
`failed` result whose error identifies the failing partition and whose
exposed aggregate is exactly the fold of the preceding partitions; in
particular, a failure injected at index 2 of the 5-partition forest
dataset exposes the combine of partitions 0 and 1 only. -/
theorem fetch_failure_partial_aggregate {S M : Type} [AddCommMonoid M] (f : S → M) :
    (∀ (good : List (List S)) (rest : List (Option (List S))),
      runResult (reduceChunk f) (· + ·) (fun _ => true)
        (good.map some ++ none :: rest) 0
        = .failed ⟨good.length⟩ ((good.flatten.map f).sum))
    ∧ runResult (reduceChunk forestIndicator) (· + ·) (fun _ => true)
        ((forestPartitions.take 2).map some ++ none ::
          (forestPartitions.drop 3).map some) 0
        = .failed ⟨2⟩ (((forestPartitions.take 2).map (reduceChunk forestIndicator)).sum) := by
  constructor
  · intro good rest
    rw [runResult, run, runFrom_append_none]
    simp [List.filter_true, foldl_comb_add, sum_map_reduceChunk]
  · rfl

/-- Whether an event is a fetch. -/
def isFetchEv : Event → Bool
  | .fetch _ => true
  | _ => false

/-- Whether an event is a combine. -/
def isCombineEv : Event → Bool
  | .combineStep _ => true
  | _ => false

/-- Unfolding the keep-everything trace one partition at a time. -/
theorem keptTraceFrom_cons_true {P : Type} (c : P) (rest : List P) (s : Nat) :
    keptTraceFrom (fun _ => true) (c :: rest) s
      = Event.fetch s :: Event.reduceStep s :: Event.combineStep s ::
        keptTraceFrom (fun _ => true) rest (s + 1) := by
  simp [keptTraceFrom]

/-- In the keep-everything trace, each in-range partition's reduce event
occurs exactly once. -/
theorem count_reduceStep_keptTrace {P : Type} (l : List P) (s i : Nat) :
    (keptTraceFrom (fun _ => true) l s).count (Event.reduceStep i)
      = if s ≤ i ∧ i < s + l.length then 1 else 0 := by
  induction l generalizing s with
  | nil =>
    simp only [keptTraceFrom, List.count_nil, List.length_nil]
    split <;> omega
  | cons c rest ih =>
    rw [keptTraceFrom_cons_true, List.count_cons, List.count_cons,
      List.count_cons, ih (s + 1)]
    simp only [List.length_cons, beq_iff_eq, Event.reduceStep.injEq,
      reduceCtorEq, if_false]
    split_ifs <;> omega

/-- In the keep-everything trace, each in-range partition's combine event
occurs exactly once. -/
theorem count_combineStep_keptTrace {P : Type} (l : List P) (s i : Nat) :
    (keptTraceFrom (fun _ => true) l s).count (Event.combineStep i)
      = if s ≤ i ∧ i < s + l.length then 1 else 0 := by
  induction l generalizing s with
  | nil =>
    simp only [keptTraceFrom, List.count_nil, List.length_nil]
    split <;> omega
  | cons c rest ih =>
    rw [keptTraceFrom_cons_true, List.count_cons, List.count_cons,
      List.count_cons, ih (s + 1)]
    simp only [List.length_cons, beq_iff_eq, Event.combineStep.injEq,
      reduceCtorEq, if_false]
    split_ifs <;> omega

/-- The keep-everything trace of a nonempty source starts with the fetch
of its first partition. -/
theorem fetch_head_sublist {P : Type} (l : List P) (s : Nat) (h : 1 ≤ l.length) :
    [Event.fetch s].Sublist (keptTraceFrom (fun _ => true) l s) := by
  cases l with
  | nil => simp at h
  | cons c rest =>
    rw [keptTraceFrom_cons_true]
    exact (List.nil_sublist _).cons₂ _

/-- Each in-range partition's fetch, reduce and combine appear in the
keep-everything trace in this order. -/
theorem block_sublist_keptTrace {P : Type} (l : List P) (s i : Nat)
    (h1 : s ≤ i) (h2 : i < s + l.length) :
    [Event.fetch i, Event.reduceStep i, Event.combineStep i].Sublist
      (keptTraceFrom (fun _ => true) l s) := by
  induction l generalizing s with
  | nil => exact absurd h1 (by simp at h2; omega)
  | cons c rest ih =>
    rw [keptTraceFrom_cons_true]
    rcases eq_or_ne i s with rfl | hne
    · exact (((List.nil_sublist _).cons₂ _).cons₂ _).cons₂ _
    · refine List.Sublist.trans (ih (s + 1) (by omega) (by simp at h2 ⊢; omega)) ?_
      exact ((List.sublist_cons_self _ _).trans
        (List.sublist_cons_self _ _)).trans (List.sublist_cons_self _ _)

/-- Each in-range partition's fetch, reduce and combine all occur before
the fetch of the next partition. -/
theorem block_next_sublist_keptTrace {P : Type} (l : List P) (s i : Nat)
    (h1 : s ≤ i) (h2 : i + 1 < s + l.length) :
    [Event.fetch i, Event.reduceStep i, Event.combineStep i,
      Event.fetch (i + 1)].Sublist (keptTraceFrom (fun _ => true) l s) := by
  induction l generalizing s with
  | nil => exact absurd h1 (by simp at h2; omega)
  | cons c rest ih =>
    rw [keptTraceFrom_cons_true]
    rcases eq_or_ne i s with rfl | hne
    · have hrest : 1 ≤ rest.length := by simp at h2; omega
      exact (((fetch_head_sublist rest _ hrest).cons₂ _).cons₂ _).cons₂ _
    · refine List.Sublist.trans (ih (s + 1) (by omega) (by simp at h2 ⊢; omega)) ?_
      exact ((List.sublist_cons_self _ _).trans
        (List.sublist_cons_self _ _)).trans (List.sublist_cons_self _ _)

/-- In every prefix of the keep-everything trace, the number of fetches
exceeds the number of combines by at most one: at most one partition's
payload is in flight at any point of the run. -/
theorem take_countP_fetch_le {P : Type} (l : List P) (s k : Nat) :
    ((keptTraceFrom (fun _ => true) l s).take k).countP isFetchEv
      ≤ ((keptTraceFrom (fun _ => true) l s).take k).countP isCombineEv + 1 := by
  induction l generalizing s k with
  | nil => simp [keptTraceFrom]
  | cons c rest ih =>
    rw [keptTraceFrom_cons_true]
    match k with
    | 0 => simp
    | 1 => simp [List.countP_cons, isFetchEv, isCombineEv]
    | 2 => simp [List.countP_cons, isFetchEv, isCombineEv]
    | j + 3 =>
      have := ih (s + 1) j
      simp only [List.take_succ_cons, List.countP_cons, isFetchEv,
        isCombineEv, if_true, if_false, cond_true, cond_false] at this ⊢
      omega

/-- C2: over an all-successful source with every partition kept, the
reducer and combiner each run exactly once per partition, the combine of
partition `i` follows its fetch and reduce, and precedes the fetch of
partition `i + 1`. -/
theorem reduce_combine_once_per_partition {P R A : Type}
    (red : P → R) (comb : A → R → A) (chunks : List P) (init : A) :
    (∀ i, i < chunks.length →
      (runTrace red comb (fun _ => true) (chunks.map some) init).count
          (Event.reduceStep i) = 1
      ∧ (runTrace red comb (fun _ => true) (chunks.map some) init).count
          (Event.combineStep i) = 1)
    ∧ (∀ i, i < chunks.length →
      [Event.fetch i, Event.reduceStep i, Event.combineStep i].Sublist
        (runTrace red comb (fun _ => true) (chunks.map some) init))
    ∧ (∀ i, i + 1 < chunks.length →
      [Event.fetch i, Event.reduceStep i, Event.combineStep i,
        Event.fetch (i + 1)].Sublist
        (runTrace red comb (fun _ => true) (chunks.map some) init)) := by
  have htr : runTrace red comb (fun _ => true) (chunks.map some) init
      = keptTraceFrom (fun _ => true) chunks 0 := by
    rw [runTrace, run, runFrom_map_some]
  rw [htr]
  refine ⟨fun i hi => ?_, fun i hi => ?_, fun i hi => ?_⟩
  · rw [count_reduceStep_keptTrace, count_combineStep_keptTrace,
      if_pos ⟨Nat.zero_le i, by omega⟩]
    exact ⟨rfl, rfl⟩
  · exact block_sublist_keptTrace chunks 0 i (Nat.zero_le i) (by omega)
  · exact block_next_sublist_keptTrace chunks 0 i (Nat.zero_le i) (by omega)

/-- Witness for C2 on the forest scenario: partition 2's reduce runs
once, and partition 1's cycle completes before partition 2's fetch. -/
theorem reduce_combine_once_per_partition_witness :
    (runTrace (reduceChunk forestIndicator) (· + ·) (fun _ => true)
      (forestPartitions.map some) 0).count (Event.reduceStep 2) = 1
    ∧ [Event.fetch 1, Event.reduceStep 1, Event.combineStep 1,
        Event.fetch 2].Sublist
      (runTrace (reduceChunk forestIndicator) (· + ·) (fun _ => true)
        (forestPartitions.map some) 0) :=
  ⟨((reduce_combine_once_per_partition (reduceChunk forestIndicator) (· + ·)
      forestPartitions 0).1 2 (by decide)).1,
    (reduce_combine_once_per_partition (reduceChunk forestIndicator) (· + ·)
      forestPartitions 0).2.2 1 (by decide)⟩

/-- C4: processing is strictly sequential — in every prefix of the trace
at most one fetched payload is not yet combined, and the fetch, reduce
and combine of partition `i` all complete before partition `i + 1` is
fetched. -/
theorem sequential_single_payload {P R A : Type}
    (red : P → R) (comb : A → R → A) (chunks : List P) (init : A) :
    (∀ p, p <+: runTrace red comb (fun _ => true) (chunks.map some) init →
      p.countP isFetchEv ≤ p.countP isCombineEv + 1)
    ∧ (∀ i, i + 1 < chunks.length →
      [Event.fetch i, Event.reduceStep i, Event.combineStep i,
        Event.fetch (i + 1)].Sublist
        (runTrace red comb (fun _ => true) (chunks.map some) init)) := by
  have htr : runTrace red comb (fun _ => true) (chunks.map some) init
      = keptTraceFrom (fun _ => true) chunks 0 := by
    rw [runTrace, run, runFrom_map_some]
  rw [htr]
  constructor
  · intro p hp
    rw [List.prefix_iff_eq_take.mp hp]
    exact take_countP_fetch_le chunks 0 p.length
  · intro i hi
    exact block_next_sublist_keptTrace chunks 0 i (Nat.zero_le i) (by omega)

/-- Witness for C4 on the forest scenario: a concrete trace prefix holds
at most one in-flight payload, and partition 0 completes before
partition 1 is fetched. -/
theorem sequential_single_payload_witness :
    ((runTrace (reduceChunk forestIndicator) (· + ·) (fun _ => true)
        (forestPartitions.map some) 0).take 4).countP isFetchEv
      ≤ ((runTrace (reduceChunk forestIndicator) (· + ·) (fun _ => true)
        (forestPartitions.map some) 0).take 4).countP isCombineEv + 1
    ∧ [Event.fetch 0, Event.reduceStep 0, Event.combineStep 0,
        Event.fetch 1].Sublist
      (runTrace (reduceChunk forestIndicator) (· + ·) (fun _ => true)
        (forestPartitions.map some) 0) :=
  ⟨(sequential_single_payload (reduceChunk forestIndicator) (· + ·)
      forestPartitions 0).1 _ ⟨_, List.take_append_drop 4 _⟩,
    (sequential_single_payload (reduceChunk forestIndicator) (· + ·)
      forestPartitions 0).2 0 (by decide)⟩

/-- A fetch event is in the trace exactly for the in-range partitions,
whatever the keep predicate. -/
theorem mem_fetch_keptTrace {P : Type} (keep : P → Bool) (l : List P) (s i : Nat) :
    Event.fetch i ∈ keptTraceFrom keep l s ↔ s ≤ i ∧ i < s + l.length := by
  induction l generalizing s with
  | nil => simp [keptTraceFrom]
  | cons c rest ih =>
    by_cases hk : keep c <;>
      · simp [keptTraceFrom, hk, ih (s + 1)]
        omega

/-- A reduce event is in the trace exactly for the kept partitions. -/
theorem mem_reduceStep_keptTrace {P : Type} (keep : P → Bool) (l : List P) (s i : Nat) :
    Event.reduceStep i ∈ keptTraceFrom keep l s
      ↔ ∃ j : Fin l.length, s + j.1 = i ∧ keep (l.get j) = true := by
  induction l generalizing s with
  | nil => simp [keptTraceFrom]
  | cons c rest ih =>
    by_cases hk : keep c
    · simp only [keptTraceFrom, if_pos hk, List.cons_append, List.nil_append,
        List.mem_cons, reduceCtorEq, Event.reduceStep.injEq, false_or, or_false,
        ih (s + 1)]
      constructor
      · rintro (h | ⟨j, hj1, hj2⟩)
        · refine ⟨⟨0, Nat.succ_pos _⟩, ?_, hk⟩
          show s + 0 = i
          omega
        · refine ⟨⟨j.1 + 1, by simp only [List.length_cons]; omega⟩, ?_, hj2⟩
          show s + (j.1 + 1) = i
          omega
      · rintro ⟨⟨j, hjlt⟩, hj1, hj2⟩
        have hj1' : s + j = i := hj1
        cases j with
        | zero => left; omega
        | succ j =>
          right
          simp only [List.length_cons] at hjlt
          refine ⟨⟨j, by omega⟩, ?_, hj2⟩
          show s + 1 + j = i
          omega
    · simp only [keptTraceFrom, if_neg hk, List.cons_append, List.nil_append,
        List.mem_cons, reduceCtorEq, false_or, ih (s + 1)]
      constructor
      · rintro ⟨j, hj1, hj2⟩
        refine ⟨⟨j.1 + 1, by simp only [List.length_cons]; omega⟩, ?_, hj2⟩
        show s + (j.1 + 1) = i
        omega
      · rintro ⟨⟨j, hjlt⟩, hj1, hj2⟩
        have hj1' : s + j = i := hj1
        cases j with
        | zero => exact absurd hj2 (by simp [List.get, hk])
        | succ j =>
          simp only [List.length_cons] at hjlt
          refine ⟨⟨j, by omega⟩, ?_, hj2⟩
          show s + 1 + j = i
          omega

/-- A combine event is in the trace exactly for the kept partitions. -/
theorem mem_combineStep_keptTrace {P : Type} (keep : P → Bool) (l : List P) (s i : Nat) :
    Event.combineStep i ∈ keptTraceFrom keep l s
      ↔ ∃ j : Fin l.length, s + j.1 = i ∧ keep (l.get j) = true := by
  induction l generalizing s with
  | nil => simp [keptTraceFrom]
  | cons c rest ih =>
    by_cases hk : keep c
    · simp only [keptTraceFrom, if_pos hk, List.cons_append, List.nil_append,
        List.mem_cons, reduceCtorEq, Event.combineStep.injEq, false_or, or_false,
        ih (s + 1)]
      constructor
      · rintro (h | ⟨j, hj1, hj2⟩)
        · refine ⟨⟨0, Nat.succ_pos _⟩, ?_, hk⟩
          show s + 0 = i
          omega
        · refine ⟨⟨j.1 + 1, by simp only [List.length_cons]; omega⟩, ?_, hj2⟩
          show s + (j.1 + 1) = i
          omega
      · rintro ⟨⟨j, hjlt⟩, hj1, hj2⟩
        have hj1' : s + j = i := hj1
        cases j with
        | zero => left; omega
        | succ j =>
          right
          simp only [List.length_cons] at hjlt
          refine ⟨⟨j, by omega⟩, ?_, hj2⟩
          show s + 1 + j = i
          omega
    · simp only [keptTraceFrom, if_neg hk, List.cons_append, List.nil_append,
        List.mem_cons, reduceCtorEq, false_or, ih (s + 1)]
      constructor
      · rintro ⟨j, hj1, hj2⟩
        refine ⟨⟨j.1 + 1, by simp only [List.length_cons]; omega⟩, ?_, hj2⟩
        show s + (j.1 + 1) = i
        omega
      · rintro ⟨⟨j, hjlt⟩, hj1, hj2⟩
        have hj1' : s + j = i := hj1
        cases j with
        | zero => exact absurd hj2 (by simp [List.get, hk])
        | succ j =>
          simp only [List.length_cons] at hjlt
          refine ⟨⟨j, by omega⟩, ?_, hj2⟩
          show s + 1 + j = i
          omega

/-- For a kept partition, the fetch, reduce and combine events appear in
the trace in this order. -/
theorem block_sublist_keptTrace_of_kept {P : Type} (keep : P → Bool)
    (l : List P) (s j : Nat) (hj : j < l.length)
    (hkeep : keep (l.get ⟨j, hj⟩) = true) :
    [Event.fetch (s + j), Event.reduceStep (s + j),
      Event.combineStep (s + j)].Sublist (keptTraceFrom keep l s) := by
  induction l generalizing s j with
  | nil => simp at hj
  | cons c rest ih =>
    match j with
    | 0 =>
      simp only [List.get] at hkeep
      simp only [keptTraceFrom, if_pos hkeep, Nat.add_zero]
      exact List.sublist_append_left _ _
    | Nat.succ j =>
      have hj2 : j < rest.length := by simp at hj; omega
      have := ih (s + 1) j hj2 hkeep
      have hshift : s + 1 + j = s + (j + 1) := by omega
      rw [hshift] at this
      refine this.trans ?_
      exact List.sublist_append_right _ _

/-- C6: with a keep predicate supplied, every partition is fetched,
exactly the kept partitions are reduced and combined (each after its
fetch and before its combine), and the final aggregate equals the
whole-dataset aggregate restricted to the rows of the kept chunks. -/
theorem filtered_aggregate_eq_restricted {S M : Type} [AddCommMonoid M] (f : S → M)
    (chunks : List (List S)) (keep : List S → Bool) :
    runResult (reduceChunk f) (· + ·) keep (chunks.map some) 0
      = .done (((chunks.filter keep).flatten.map f).sum)
    ∧ (∀ i, Event.fetch i ∈
        runTrace (reduceChunk f) (· + ·) keep (chunks.map some) 0
        ↔ i < chunks.length)
    ∧ (∀ j : Fin chunks.length,
        (Event.reduceStep j.1 ∈
            runTrace (reduceChunk f) (· + ·) keep (chunks.map some) 0
          ↔ keep (chunks.get j) = true)
        ∧ (Event.combineStep j.1 ∈
            runTrace (reduceChunk f) (· + ·) keep (chunks.map some) 0
          ↔ keep (chunks.get j) = true))
    ∧ (∀ j : Fin chunks.length, keep (chunks.get j) = true →
        [Event.fetch j.1, Event.reduceStep j.1, Event.combineStep j.1].Sublist
          (runTrace (reduceChunk f) (· + ·) keep (chunks.map some) 0)) := by
  have htr : runTrace (reduceChunk f) (· + ·) keep (chunks.map some) 0
      = keptTraceFrom keep chunks 0 := by
    rw [runTrace, run, runFrom_map_some]
  have hfin : ∀ j : Fin chunks.length,
      (∃ j2 : Fin chunks.length, 0 + j2.1 = j.1 ∧ keep (chunks.get j2) = true)
        ↔ keep (chunks.get j) = true := by
    intro j
    constructor
    · rintro ⟨j2, hj1, hj2⟩
      have : j2 = j := Fin.ext (by omega)
      exact this ▸ hj2
    · intro hk
      exact ⟨j, by omega, hk⟩
  refine ⟨?_, ?_, ?_, ?_⟩
  · rw [runResult, run, runFrom_map_some]
    simp [foldl_comb_add, sum_map_reduceChunk]
  · intro i
    rw [htr, mem_fetch_keptTrace]
    omega
  · intro j
    rw [htr, mem_reduceStep_keptTrace, mem_combineStep_keptTrace]
    exact ⟨hfin j, hfin j⟩
  · intro j hk
    rw [htr]
    have := block_sublist_keptTrace_of_kept keep chunks 0 j.1 j.2 (by
      have : (⟨j.1, j.2⟩ : Fin chunks.length) = j := Fin.ext rfl
      rw [this]
      exact hk)
    simpa using this

/-- Witness for C6 on the forest scenario with a predicate keeping only
the short partitions (lengths ≤ 2, i.e. partitions 1 and 3): the
aggregate equals the restricted whole-dataset aggregate, and partition 0
(filtered out) is fetched but partition 1 (kept) is reduced. -/
theorem filtered_aggregate_eq_restricted_witness :
    runResult (reduceChunk forestIndicator) (· + ·)
        (fun c => decide (c.length ≤ 2)) (forestPartitions.map some) 0
      = .done (((forestPartitions.filter (fun c => decide (c.length ≤ 2))).flatten.map
          forestIndicator).sum)
    ∧ (Event.reduceStep 1 ∈
        runTrace (reduceChunk forestIndicator) (· + ·)
          (fun c => decide (c.length ≤ 2)) (forestPartitions.map some) 0
        ↔ decide ((forestPartitions.get ⟨1, by decide⟩).length ≤ 2) = true) :=
  ⟨(filtered_aggregate_eq_restricted forestIndicator forestPartitions
      (fun c => decide (c.length ≤ 2))).1,
    ((filtered_aggregate_eq_restricted forestIndicator forestPartitions
      (fun c => decide (c.length ≤ 2))).2.2.1 ⟨1, by decide⟩).1⟩

/-- Modelled from the spec: the aggregator's state machine, absent from
the repository sources — `idle` before the first fetch, `processing`
with the index of the next partition and the running aggregate, and the
terminal states `done` and `failed`. -/
inductive AggState (A : Type) where
  | idle
  | processing (next : Nat) (acc : A)
  | done (acc : A)
  | failed (err : FetchError) (acc : A)
deriving DecidableEq

/-- Modelled from the spec: one transition of the aggregator's state
machine, returning the new state and the events of the transition.
`idle` starts processing; `processing` ends when the source is
exhausted, fails when a fetch fails, and otherwise performs one
fetch-reduce-combine cycle; `done` and `failed` are terminal. -/
def stepState {P R A : Type} (red : P → R) (comb : A → R → A)
    (src : List (Option P)) (init : A) : AggState A → AggState A × List Event
  | .idle => (.processing 0 init, [])
  | .processing i acc =>
    match src[i]? with
    | none => (.done acc, [])
    | some none => (.failed ⟨i⟩ acc, [.fetch i])
    | some (some p) =>
      (.processing (i + 1) (comb acc (red p)),
        [.fetch i, .reduceStep i, .combineStep i])
  | .done acc => (.done acc, [])
  | .failed e acc => (.failed e acc, [])

/-- Whether a state of the aggregator's machine is terminal. -/
def isTerminal {A : Type} : AggState A → Bool
  | .done _ => true
  | .failed _ _ => true
  | _ => false

/-- C8: no transition leaves a terminal state — from `done` or `failed`
a step produces no fetch, reduce or combine event and does not change
the state, and neither does any number of further steps. -/
theorem terminal_states_absorbing {P R A : Type} (red : P → R) (comb : A → R → A)
    (src : List (Option P)) (init : A) (s : AggState A)
    (h : isTerminal s = true) :
    stepState red comb src init s = (s, [])
    ∧ ∀ n, (fun t => (stepState red comb src init t).1)^[n] s = s := by
  have hstep : stepState red comb src init s = (s, []) := by
    cases s with
    | idle => simp [isTerminal] at h
    | processing i acc => simp [isTerminal] at h
    | done acc => rfl
    | failed e acc => rfl
  refine ⟨hstep, fun n => Function.iterate_fixed ?_ n⟩
  rw [hstep]

/-- Witness for C8: the `done` state of the forest scenario is fixed
under a machine step. -/
theorem terminal_states_absorbing_witness :
    stepState (reduceChunk forestIndicator) (· + ·)
        (forestPartitions.map some) 0 (AggState.done 10)
      = (AggState.done 10, [])
    ∧ ∀ n, (fun t => (stepState (reduceChunk forestIndicator) (· + ·)
        (forestPartitions.map some) 0 t).1)^[n] (AggState.done 10)
      = AggState.done 10 :=
  terminal_states_absorbing (reduceChunk forestIndicator) (· + ·)
    (forestPartitions.map some) 0 (AggState.done 10) rfl

/-- C7: the aggregator is deterministic — two runs over the same source
with the same reducer, combiner, predicate and initial aggregate yield
identical traces and results. -/
theorem deterministic_rerun_identical {P R A : Type}
    (red1 red2 : P → R) (comb1 comb2 : A → R → A) (keep1 keep2 : P → Bool)
    (src1 src2 : List (Option P)) (init1 init2 : A)
    (hred : red1 = red2) (hcomb : comb1 = comb2) (hkeep : keep1 = keep2)
    (hsrc : src1 = src2) (hinit : init1 = init2) :
    run red1 comb1 keep1 src1 init1 = run red2 comb2 keep2 src2 init2 := by
  subst hred hcomb hkeep hsrc hinit
  rfl

/-- Witness for C7: two runs of the forest scenario are identical. -/
theorem deterministic_rerun_identical_witness :
    run (reduceChunk forestIndicator) (· + ·) (fun _ => true)
        (forestPartitions.map some) 0
      = run (reduceChunk forestIndicator) (· + ·) (fun _ => true)
        (forestPartitions.map some) 0 :=
  deterministic_rerun_identical _ _ _ _ _ _ _ _ _ _ rfl rfl rfl rfl rfl

end ChunkedAggregator

namespace RasterWindows

/-- Python `range(0, stop, step)` as used by the notebook's manual
chunking loop (`range(0, height, y_chunk_size)` and
`range(0, width, x_chunk_size)`). -/
def pyRange (stop step : Nat) : List Nat :=
  List.range' 0 ((stop + step - 1) / step) step

/-- A rasterio `Window(col_off, row_off, width, height)`. -/
structure Window where
  colOff : Nat
  rowOff : Nat
  width : Nat
  height : Nat
deriving DecidableEq

/-- The windows generated by the notebook's manual chunking loop: row
starts at multiples of `ychunk`, column starts at multiples of `xchunk`,
extents clipped with `min` to the image bounds
(`end_row = min(start_row + y_chunk_size, height)`, and likewise for
columns). -/
def windowsOf (height width ychunk xchunk : Nat) : List Window :=
  (pyRange height ychunk).flatMap fun startRow =>
    (pyRange width xchunk).map fun startCol =>
      { colOff := startCol, rowOff := startRow,
        width := min (startCol + xchunk) width - startCol,
        height := min (startRow + ychunk) height - startRow }

/-- Pixel `(r, c)` lies in window `w`. -/
def containsPix (w : Window) (r c : Nat) : Bool :=
  decide (w.rowOff ≤ r) && decide (r < w.rowOff + w.height) &&
    decide (w.colOff ≤ c) && decide (c < w.colOff + w.width)

/-- The pixel coordinates covered by a window, row-major. -/
def pixelsOf (w : Window) : List (Nat × Nat) :=
  (List.range' w.rowOff w.height).flatMap fun r =>
    (List.range' w.colOff w.width).map fun c => (r, c)

/-- All pixel coordinates of the image, row-major: the full-image read
of the notebook's comparison cell (`src.read(1)` without a window). -/
def allPixels (height width : Nat) : List (Nat × Nat) :=
  (List.range height).flatMap fun r => (List.range width).map fun c => (r, c)

/-- Reading one window: the image's values over the window's pixels. -/
def readWindow {B : Type} (img : Nat × Nat → B) (w : Window) : List B :=
  (pixelsOf w).map img

/-- Reading the whole image at once. -/
def readFull {B : Type} (img : Nat × Nat → B) (height width : Nat) : List B :=
  (allPixels height width).map img

/-- Counting over a flatMap is the sum of the per-block counts. -/
theorem countP_flatMap {A B : Type} (p : B → Bool) (l : List A) (f : A → List B) :
    (l.flatMap f).countP p = (l.map fun a => (f a).countP p).sum := by
  induction l with
  | nil => simp
  | cons a t ih => simp [List.countP_append, ih]

/-- Summing an indicator with weight `K` counts the satisfying elements. -/
theorem sum_map_ite_countP {A : Type} (p : A → Bool) (K : Nat) (l : List A) :
    (l.map fun a => if p a then K else 0).sum = K * l.countP p := by
  induction l with
  | nil => simp
  | cons a t ih =>
    by_cases hp : p a <;>
      simp [hp, ih, List.countP_cons, Nat.mul_add, Nat.add_comm]

/-- A conjunction with a constant factors out of a count. -/
theorem countP_const_and {A : Type} (b : Bool) (q : A → Bool) (l : List A) :
    l.countP (fun y => b && q y) = if b then l.countP q else 0 := by
  cases b <;> simp

/-- A conjunction with a constant factors out of a count (other side). -/
theorem countP_and_const {A : Type} (b : Bool) (q : A → Bool) (l : List A) :
    l.countP (fun y => q y && b) = if b then l.countP q else 0 := by
  cases b <;> simp

/-- Counting a single value in a consecutive range. -/
theorem countNat_range' (v s n : Nat) :
    (List.range' s n).countP (fun x => decide (x = v))
      = if s ≤ v ∧ v < s + n then 1 else 0 := by
  induction n generalizing s with
  | zero =>
    simp only [List.range', List.countP_nil]
    split <;> omega
  | succ n ih =>
    rw [List.range'_succ, List.countP_cons, ih (s + 1)]
    simp only [decide_eq_true_eq]
    split_ifs <;> omega

/-- Counting the unique chunk interval containing `x` in an arithmetic
progression of starts. -/
theorem countP_range'_interval (step x : Nat) (n s : Nat) :
    (List.range' s n step).countP
        (fun y => decide (y ≤ x) && decide (x < y + step))
      = if s ≤ x ∧ x < s + step * n then 1 else 0 := by
  induction n generalizing s with
  | zero =>
    simp only [List.range', List.countP_nil, Nat.mul_zero]
    split <;> omega
  | succ n ih =>
    rw [List.range'_succ, List.countP_cons, ih (s + step)]
    simp only [Bool.and_eq_true, decide_eq_true_eq, Nat.mul_succ]
    split_ifs <;> omega

/-- The ceil-division chunk count, unfolded once. -/
theorem pyRange_ceil (stop step : Nat) (hstep : 0 < step) (hstop : 0 < stop) :
    (stop + step - 1) / step = (stop - 1) / step + 1 := by
  have h : stop + step - 1 = (stop - 1) + step := by omega
  rw [h, Nat.add_div_right _ hstep]

/-- Every start produced by the chunking loop is inside the image. -/
theorem mem_pyRange_lt {stop step y : Nat} (hstep : 0 < step) (hstop : 0 < stop)
    (hy : y ∈ pyRange stop step) : y < stop := by
  rw [pyRange, List.mem_range'] at hy
  obtain ⟨k, hk, rfl⟩ := hy
  rw [pyRange_ceil stop step hstep hstop] at hk
  have h1 : k ≤ (stop - 1) / step := by omega
  have h2 : step * k ≤ step * ((stop - 1) / step) := Nat.mul_le_mul_left step h1
  have h3 : step * ((stop - 1) / step) ≤ stop - 1 := Nat.mul_div_le (stop - 1) step
  calc 0 + step * k = step * k := Nat.zero_add _
    _ ≤ step * ((stop - 1) / step) := h2
    _ ≤ stop - 1 := h3
    _ < stop := Nat.sub_lt hstop Nat.one_pos

/-- Any in-bounds coordinate lies in exactly one chunk interval of the
loop's starts. -/
theorem countP_pyRange_interval (stop step x : Nat) (hstep : 0 < step)
    (hx : x < stop) :
    (pyRange stop step).countP
        (fun y => decide (y ≤ x) && decide (x < y + step)) = 1 := by
  rw [pyRange, countP_range'_interval]
  rw [if_pos]
  refine ⟨Nat.zero_le x, ?_⟩
  have hdm := Nat.div_add_mod (stop + step - 1) step
  have hml : (stop + step - 1) % step < step := Nat.mod_lt _ hstep
  omega

/-- With an in-bounds row, the clipped row condition of a generated
window agrees with the unclipped one, for every start. -/
theorem rowCond_clip_eq (h ychunk r : Nat) (hr : r < h) (sr : Nat) :
    (decide (sr ≤ r) && decide (r < sr + (min (sr + ychunk) h - sr)))
      = (decide (sr ≤ r) && decide (r < sr + ychunk)) := by
  congr 1
  exact decide_eq_decide.mpr (by omega)

/-- Every generated window lies inside the image bounds. -/
theorem windows_inBounds (h w ychunk xchunk : Nat)
    (hh : 0 < h) (hw : 0 < w) (hy : 0 < ychunk) (hx : 0 < xchunk) :
    ∀ win ∈ windowsOf h w ychunk xchunk,
      win.rowOff + win.height ≤ h ∧ win.colOff + win.width ≤ w := by
  intro win hwin
  rw [windowsOf, List.mem_flatMap] at hwin
  obtain ⟨sr, hsr, hwin⟩ := hwin
  rw [List.mem_map] at hwin
  obtain ⟨sc, hsc, rfl⟩ := hwin
  have h1 : sr < h := mem_pyRange_lt hy hh hsr
  have h2 : sc < w := mem_pyRange_lt hx hw hsc
  constructor <;> simp <;> omega

/-- Every in-bounds pixel lies in exactly one generated window. -/
theorem countP_contains_windows (h w ychunk xchunk r c : Nat)
    (hh : 0 < h) (hw : 0 < w) (hy : 0 < ychunk) (hx : 0 < xchunk)
    (hr : r < h) (hc : c < w) :
    (windowsOf h w ychunk xchunk).countP (fun win => containsPix win r c) = 1 := by
  rw [windowsOf, countP_flatMap]
  have hinner : ∀ sr : Nat,
      (((pyRange w xchunk).map fun startCol =>
        ({ colOff := startCol, rowOff := sr,
           width := min (startCol + xchunk) w - startCol,
           height := min (sr + ychunk) h - sr } : Window)).countP
        fun win => containsPix win r c)
      = if (decide (sr ≤ r) && decide (r < sr + ychunk)) then 1 else 0 := by
    intro sr
    rw [List.countP_map]
    have hsplit : ((fun win => containsPix win r c) ∘ fun startCol =>
        ({ colOff := startCol, rowOff := sr,
           width := min (startCol + xchunk) w - startCol,
           height := min (sr + ychunk) h - sr } : Window))
        = fun sc => (decide (sr ≤ r) && decide (r < sr + ychunk)) &&
            (decide (sc ≤ c) && decide (c < sc + xchunk)) := by
      funext sc
      show containsPix _ r c = _
      rw [containsPix]
      simp only []
      rw [Bool.and_assoc]
      congr 1
      · exact rowCond_clip_eq h ychunk r hr sr
      · congr 1
        exact decide_eq_decide.mpr (by omega)
    rw [hsplit, countP_const_and,
      countP_pyRange_interval w xchunk c hx hc]
  simp only [hinner]
  rw [sum_map_ite_countP, countP_pyRange_interval h ychunk r hy hr,
    Nat.mul_one]

/-- Counting one pixel inside one window's pixel list. -/
theorem countPix_pixelsOf (win : Window) (r c : Nat) :
    (pixelsOf win).countP (fun x => decide (x = (r, c)))
      = if containsPix win r c then 1 else 0 := by
  rw [pixelsOf, countP_flatMap]
  have hinner : ∀ a : Nat,
      (((List.range' win.colOff win.width).map fun c2 => (a, c2)).countP
        fun x => decide (x = (r, c)))
      = if ((decide (win.colOff ≤ c) && decide (c < win.colOff + win.width))
            && decide (a = r)) then 1 else 0 := by
    intro a
    rw [List.countP_map]
    have hsplit : ((fun x => decide (x = (r, c))) ∘ fun c2 => (a, c2))
        = fun c2 => decide (a = r) && decide (c2 = c) := by
      funext c2
      show decide ((a, c2) = (r, c)) = (decide (a = r) && decide (c2 = c))
      by_cases h1 : a = r <;> by_cases h2 : c2 = c <;> simp [h1, h2]
    rw [hsplit, countP_const_and, countNat_range' c win.colOff win.width]
    by_cases ha : a = r <;>
      by_cases hcc : win.colOff ≤ c ∧ c < win.colOff + win.width <;>
        simp [ha, hcc]
  simp only [hinner]
  rw [sum_map_ite_countP, countP_const_and,
    countNat_range' r win.rowOff win.height, containsPix, Nat.one_mul]
  simp only [Bool.and_eq_true, decide_eq_true_eq]
  split_ifs <;> omega

/-- Two lists with equal per-value counts are permutations. -/
theorem perm_of_countP_eq {A : Type} [DecidableEq A] (l1 l2 : List A)
    (hcnt : ∀ a : A, l1.countP (fun x => decide (x = a))
      = l2.countP (fun x => decide (x = a))) :
    l1.Perm l2 := by
  rw [List.perm_iff_count]
  intro a
  rw [List.count_eq_countP, List.count_eq_countP]
  refine (List.countP_congr ?_).trans
    ((hcnt a).trans (List.countP_congr ?_).symm) <;>
    · intro x hx
      simp

/-- The multiset of pixels covered by the generated windows is exactly
the multiset of pixels of the image. -/
theorem flatMap_pixels_perm (h w ychunk xchunk : Nat)
    (hh : 0 < h) (hw : 0 < w) (hy : 0 < ychunk) (hx : 0 < xchunk) :
    ((windowsOf h w ychunk xchunk).flatMap pixelsOf).Perm (allPixels h w) := by
  refine perm_of_countP_eq _ _ ?_
  intro a
  obtain ⟨r, c⟩ := a
  have hall : allPixels h w = pixelsOf ⟨0, 0, w, h⟩ := by
    rw [allPixels, pixelsOf]
    simp [List.range_eq_range']
  rw [hall, countPix_pixelsOf, countP_flatMap]
  simp only [countPix_pixelsOf]
  rw [sum_map_ite_countP, Nat.one_mul]
  by_cases hin : r < h ∧ c < w
  · rw [countP_contains_windows h w ychunk xchunk r c hh hw hy hx hin.1 hin.2]
    rw [if_pos]
    rw [containsPix]
    simp only [Bool.and_eq_true, decide_eq_true_eq]
    omega
  · have hz : (windowsOf h w ychunk xchunk).countP
        (fun win => containsPix win r c) = 0 := by
      rw [List.countP_eq_zero]
      intro win hwin hcont
      have hb := windows_inBounds h w ychunk xchunk hh hw hy hx win hwin
      rw [containsPix] at hcont
      simp only [Bool.and_eq_true, decide_eq_true_eq] at hcont
      exact hin ⟨by omega, by omega⟩
    rw [hz, if_neg]
    rw [containsPix]
    simp only [Bool.and_eq_true, decide_eq_true_eq]
    omega

end RasterWindows

namespace RasterWindows

/-- C9: the windows generated by the notebook's manual chunking loop
tile the raster exactly — every generated window lies inside the image,
every in-bounds pixel lies in exactly one window, the windows' pixels
are precisely the image's pixels, and hence the concatenated per-window
reads carry exactly the values of the full-image read. -/
theorem windows_tile_exactly (h w ychunk xchunk : Nat)
    (hh : 0 < h) (hw : 0 < w) (hy : 0 < ychunk) (hx : 0 < xchunk) :
    (∀ win ∈ windowsOf h w ychunk xchunk,
      win.rowOff + win.height ≤ h ∧ win.colOff + win.width ≤ w)
    ∧ (∀ r c, r < h → c < w →
      (windowsOf h w ychunk xchunk).countP (fun win => containsPix win r c) = 1)
    ∧ ((windowsOf h w ychunk xchunk).flatMap pixelsOf).Perm (allPixels h w)
    ∧ (∀ (B : Type) (img : Nat × Nat → B),
      ((windowsOf h w ychunk xchunk).flatMap (readWindow img)).Perm
        (readFull img h w)) := by
  refine ⟨windows_inBounds h w ychunk xchunk hh hw hy hx,
    fun r c hr hc =>
      countP_contains_windows h w ychunk xchunk r c hh hw hy hx hr hc,
    flatMap_pixels_perm h w ychunk xchunk hh hw hy hx,
    fun B img => ?_⟩
  have hmap : ((windowsOf h w ychunk xchunk).flatMap (readWindow img))
      = ((windowsOf h w ychunk xchunk).flatMap pixelsOf).map img := by
    rw [List.map_flatMap]
    rfl
  rw [hmap, readFull]
  exact (flatMap_pixels_perm h w ychunk xchunk hh hw hy hx).map img

/-- Witness for C9 at a concrete raster: a 3-row, 4-column image chunked
with 2-row, 3-column windows. -/
theorem windows_tile_exactly_witness :
    (∀ win ∈ windowsOf 3 4 2 3,
      win.rowOff + win.height ≤ 3 ∧ win.colOff + win.width ≤ 4)
    ∧ (∀ r c, r < 3 → c < 4 →
      (windowsOf 3 4 2 3).countP (fun win => containsPix win r c) = 1)
    ∧ ((windowsOf 3 4 2 3).flatMap pixelsOf).Perm (allPixels 3 4)
    ∧ (∀ (B : Type) (img : Nat × Nat → B),
      ((windowsOf 3 4 2 3).flatMap (readWindow img)).Perm (readFull img 3 4)) :=
  windows_tile_exactly 3 4 2 3 (by decide) (by decide) (by decide) (by decide)

end RasterWindows

namespace LazyPipeline

/-- A datacube as loaded from the notebook's zarr store: the outer list
is the `time` axis, each inner list the flattened spatial cells of one
time slice.  Exact rationals stand in for the numeric cell values. -/
def scaleCube (k : ℚ) (da : List (List ℚ)) : List (List ℚ) :=
  da.map (List.map (· * k))

/-- The mean over the `time` dimension (`.mean(dim="time")`): cell `j`
of the result averages cell `j` of every time slice. -/
def meanTimeEval (da : List (List ℚ)) (ncells : Nat) : List ℚ :=
  (List.range ncells).map fun j =>
    (da.map fun slice => slice.getD j 0).sum / (da.length : ℚ)

/-- The eager pipeline: with the array fully loaded, scale every cell by
10, then take the mean over time. -/
def eagerScaledMean (da : List (List ℚ)) (ncells : Nat) : List ℚ :=
  meanTimeEval (scaleCube 10 da) ncells

/-- The notebook's lazily built computation: opening the store yields a
lazy handle (`load`), `da * 10` and `.mean(dim="time")` only record the
pending operations (`scale`, `meanTime`); no value is produced until
the graph is forced. -/
inductive LazyExpr where
  | load (da : List (List ℚ))
  | scale (k : ℚ) (e : LazyExpr)
  | meanTime (e : LazyExpr)

/-- A forced value: either still a time-indexed cube or a single
time-collapsed field. -/
inductive Value where
  | cube (da : List (List ℚ))
  | field (v : List ℚ)
deriving DecidableEq

/-- Forcing the deferred graph (`.compute()`): evaluate the recorded
operations innermost-first and materialize the result. -/
def compute (ncells : Nat) : LazyExpr → Value
  | .load da => .cube da
  | .scale k e =>
    match compute ncells e with
    | .cube da => .cube (scaleCube k da)
    | .field v => .field (v.map (· * k))
  | .meanTime e =>
    match compute ncells e with
    | .cube da => .field (meanTimeEval da ncells)
    | .field v => .field v

/-- The notebook's deferred pipeline as an expression:
`mean_data = (da * 10).mean(dim="time")`. -/
def lazyScaledMean (da : List (List ℚ)) : LazyExpr :=
  LazyExpr.meanTime (LazyExpr.scale 10 (LazyExpr.load da))

end LazyPipeline

namespace LazyPipeline

/-- C10: forcing the lazily built scale-then-mean pipeline produces
exactly the same values as scaling and averaging eagerly on the fully
loaded array, for every input array — deferral changes when the work
happens, never the result. -/
theorem lazy_eq_eager_scaled_mean (da : List (List ℚ)) (ncells : Nat) :
    compute ncells (lazyScaledMean da) = .field (eagerScaledMean da ncells) := by
  rw [lazyScaledMean, compute, compute, compute, eagerScaledMean]

end LazyPipeline
